import Mathlib

/-!
Shallow embedding of the target-resolution and rename-planning engine of
src/rename_tool.py.  Names are modelled as lists of characters, filesystem
paths as lists of name components, and the filesystem as a boolean
existence oracle passed in explicitly.
-/

namespace RenameTool

/-- The three platform rule-sets keyed by ILLEGAL_CHARS (rename_tool.py, lines 11-15). -/
inductive Platform
  | windows
  | macos
  | linux
deriving DecidableEq

/-- ILLEGAL_CHARS: the character class that is illegal in names on each platform. -/
def illegalChars : Platform → List Char
  | .windows => ['<', '>', ':', '"', '/', '\\', '|', '?', '*']
  | .macos => [':', '/']
  | .linux => ['/']

/-- Whether a character matches the platform's illegal-character class. -/
def isIllegalChar (p : Platform) (c : Char) : Bool :=
  decide (c ∈ illegalChars p)

/-- Embeds re.findall of the one-character class pattern over content:
every occurrence of an illegal character, in order. -/
def reFindAll (p : Platform) (content : List Char) : List Char :=
  content.filter (fun c => isIllegalChar p c)

/-- Embeds re.sub of the one-character class pattern with the empty replacement:
content with every illegal character removed. -/
def reSub (p : Platform) (content : List Char) : List Char :=
  content.filter (fun c => ! isIllegalChar p c)

/-- filter_illegal_chars (lines 62-78): the filtered content together with the
deduplicated list of removed characters.  The Python builds the second component
as list over a set, whose order is unspecified; first-occurrence order is one
admissible order. -/
def filter_illegal_chars (p : Platform) (content : List Char) : List Char × List Char :=
  (reSub p content, (reFindAll p content).dedup)

/-- Index of the last dot of the name, as Python str.rfind of the dot
(none when the name has no dot). -/
def rfindDot : List Char → Option Nat
  | [] => none
  | c :: cs =>
    match rfindDot cs with
    | some i => some (i + 1)
    | none => if c = '.' then some 0 else none

/-- pathlib's Path.suffix of a name: the part from the last dot onward, except
that it is empty when that dot is the first or the last character. -/
def pathSuffix (name : List Char) : List Char :=
  match rfindDot name with
  | some i => if 0 < i ∧ i < name.length - 1 then name.drop i else []
  | none => []

/-- pathlib's Path.stem of a name: the part before pathSuffix. -/
def pathStem (name : List Char) : List Char :=
  match rfindDot name with
  | some i => if 0 < i ∧ i < name.length - 1 then name.take i else name
  | none => name

/-- The extension in the words of the specification: the part of the name running
from the last separator dot onward, empty when the name has no dot. -/
def specExt (name : List Char) : List Char :=
  match rfindDot name with
  | some i => name.drop i
  | none => []

/-- The three insertion positions of the tool; the source spells them 开头 (start),
末尾 (end) and 中间 (middle). -/
inductive Position
  | atStart
  | atEnd
  | atMiddle
deriving DecidableEq

/-- The kind tag of a target ('folder' or 'file' in the source dictionaries). -/
inductive TKind
  | folder
  | file
deriving DecidableEq

/-- The middle-insertion splice of generate_new_name (lines 218-222 and 231-234):
an index at least the length of the name is first clamped to half the length
(integer division), then the content is spliced in at the index. -/
def spliceAt (name content : List Char) (idx : Nat) : List Char :=
  if name.length ≤ idx then
    name.take (name.length / 2) ++ content ++ name.drop (name.length / 2)
  else
    name.take idx ++ content ++ name.drop idx

/-- The new stem computed for a File target by generate_new_name (lines 227-234). -/
def new_file_stem (stem content : List Char) (position : Position) (insert_index : Nat) :
    List Char :=
  match position with
  | .atStart => content ++ stem
  | .atEnd => stem ++ content
  | .atMiddle => spliceAt stem content insert_index

/-- generate_new_name (lines 198-237): for a folder the whole name is transformed,
for a file only the pathlib stem is transformed and the pathlib extension is
appended back. -/
def generate_new_name (ttype : TKind) (name : List Char) (position : Position)
    (custom_content : List Char) (insert_index : Nat) : List Char :=
  match ttype with
  | .folder =>
    match position with
    | .atStart => custom_content ++ name
    | .atEnd => name ++ custom_content
    | .atMiddle => spliceAt name custom_content insert_index
  | .file => new_file_stem (pathStem name) custom_content position insert_index ++ pathSuffix name

/-- A filesystem path, as its list of components. -/
abbrev FsPath := List (List Char)

/-- Splitting a string on the path separator, as pathlib does when a joined
string holds separators. -/
def splitSlash : List Char → List (List Char)
  | [] => [[]]
  | c :: cs =>
    match splitSlash cs with
    | [] => [[]]
    | h :: t => if c = '/' then [] :: h :: t else (c :: h) :: t

/-- pathlib's joinpath of a path and a string: the string is split on the
separator and its non-empty components are appended. -/
def pathJoin (dir : FsPath) (s : List Char) : FsPath :=
  dir ++ (splitSlash s).filter (fun x => x ≠ [])

/-- pathlib's Path.parent: the path without its last component. -/
def parentDir (p : FsPath) : FsPath := p.dropLast

/-- pathlib's Path.name: the last component of the path. -/
def pathName (p : FsPath) : List Char := (p.getLast?).getD []

/-- check_duplicate_name (lines 240-250) against an existence oracle: whether the
parent directory joined with the new name names an existing entry. -/
def check_duplicate_name (exists_fs : FsPath → Bool) (target_path : FsPath)
    (new_name : List Char) : Bool :=
  exists_fs (pathJoin (parentDir target_path) new_name)

/-- One entry of the rename plan built at lines 387-394 of rename_core. -/
structure RenamePlanItem where
  original_path : FsPath
  original_name : List Char
  new_name : List Char
  new_path : FsPath
  ttype : TKind
  duplicate : Bool
deriving DecidableEq

/-- Building one plan entry as rename_core does at lines 374-394: the new name is
computed from the target's name, the new path joins it to the parent directory,
and the duplicate flag is the collision check at plan-build time. -/
def build_plan_item (exists_fs : FsPath → Bool) (target_path : FsPath) (ttype : TKind)
    (position : Position) (content : List Char) (insert_index : Nat) : RenamePlanItem :=
  let original_name := pathName target_path
  let nm := generate_new_name ttype original_name position content insert_index
  { original_path := target_path
    original_name := original_name
    new_name := nm
    new_path := pathJoin (parentDir target_path) nm
    ttype := ttype
    duplicate := check_duplicate_name exists_fs target_path nm }

/-- The result of one attempted os.rename call during execution. -/
inductive RenameOutcome
  | ok
  | permFault
  | otherFault
deriving DecidableEq

/-- One audit log record, as composed at lines 429-431: timestamp, operator,
kind, position, insert index (only meaningful for middle insertion), original
path and new path. -/
structure AuditRecord where
  timestamp : List Char
  operator : List Char
  ttype : TKind
  position : Position
  insert_index : Option Nat
  from_path : FsPath
  to_path : FsPath
deriving DecidableEq

/-- The audit record written for one successfully renamed plan entry. -/
def mkAuditRecord (ts op : List Char) (position : Position) (idx : Nat)
    (item : RenamePlanItem) : AuditRecord :=
  { timestamp := ts
    operator := op
    ttype := item.ttype
    position := position
    insert_index := if position = Position.atMiddle then some idx else none
    from_path := item.original_path
    to_path := item.new_path }

/-- The aggregate outcome of executing a plan (lines 409-441). -/
structure ExecResult where
  success_count : Nat
  fail_count : Nat
  log_records : List AuditRecord
deriving DecidableEq

/-- The execution loop of rename_core (lines 416-437): a duplicate entry is
skipped and counted as a failure; otherwise the rename is attempted, a success
is counted and logged, and either fault is counted as a failure; every entry is
processed in order.  The outcome oracle gives the result of the os.rename call
for the entry at each plan index. -/
def execute_plan (outcome : Nat → RenameOutcome) (ts op : List Char) (position : Position)
    (idx : Nat) : List RenamePlanItem → Nat → ExecResult
  | [], _ => { success_count := 0, fail_count := 0, log_records := [] }
  | item :: rest, i =>
    let r := execute_plan outcome ts op position idx rest (i + 1)
    if item.duplicate = true then
      { success_count := r.success_count
        fail_count := r.fail_count + 1
        log_records := r.log_records }
    else
      match outcome i with
      | .ok =>
        { success_count := r.success_count + 1
          fail_count := r.fail_count
          log_records := mkAuditRecord ts op position idx item :: r.log_records }
      | _ =>
        { success_count := r.success_count
          fail_count := r.fail_count + 1
          log_records := r.log_records }

/-- The sublist of plan entries, in order, that are not skipped as duplicates and
whose rename call succeeds. -/
def successfulItems (outcome : Nat → RenameOutcome) : List RenamePlanItem → Nat →
    List RenamePlanItem
  | [], _ => []
  | item :: rest, i =>
    if item.duplicate = false ∧ outcome i = RenameOutcome.ok then
      item :: successfulItems outcome rest (i + 1)
    else
      successfulItems outcome rest (i + 1)

/-- A resolved target of get_target_list: a path tagged with its kind. -/
structure Target where
  path : FsPath
  kind : TKind
deriving DecidableEq

/-- The deduplication post-processing of get_target_list (line 146): the list is
rebuilt from the set of its entries, so structurally equal (path, kind) pairs
collapse to one.  The Python set leaves the order unspecified; keeping the first
occurrence is one admissible order. -/
def dedupe_targets (target_list : List Target) : List Target :=
  target_list.dedup

/-! ### Helper lemmas about the last-dot search and stem/extension splitting -/

theorem rfindDot_none_of_not_mem {l : List Char} (h : '.' ∉ l) : rfindDot l = none := by
  induction l with
  | nil => rfl
  | cons c cs ih =>
    have hc : c ≠ '.' := fun e => h (by simp [e])
    have hcs : '.' ∉ cs := fun m => h (List.mem_cons_of_mem _ m)
    rw [rfindDot, ih hcs]
    simp [hc]

theorem not_mem_of_rfindDot_none {l : List Char} (h : rfindDot l = none) : '.' ∉ l := by
  induction l with
  | nil => simp
  | cons c cs ih =>
    rw [rfindDot] at h
    cases hcs : rfindDot cs with
    | some j => rw [hcs] at h; exact absurd h (by simp)
    | none =>
      rw [hcs] at h
      by_cases hc : c = '.'
      · rw [if_pos hc] at h; exact absurd h (by simp)
      · rw [if_neg hc] at h
        intro hm
        rcases List.mem_cons.1 hm with he | hm'
        · exact hc he.symm
        · exact ih hcs hm'

theorem rfindDot_append (xs ys : List Char) :
    rfindDot (xs ++ ys) =
      match rfindDot ys with
      | some j => some (xs.length + j)
      | none => rfindDot xs := by
  induction xs with
  | nil =>
    cases h : rfindDot ys <;> simp [h, rfindDot]
  | cons c cs ih =>
    rw [List.cons_append, rfindDot, ih]
    cases hys : rfindDot ys with
    | some j =>
      simp only [List.length_cons]
      congr 1
      omega
    | none => rfl

theorem rfindDot_drop {l : List Char} {i : Nat} (h : rfindDot l = some i) :
    ∃ body, l.drop i = '.' :: body ∧ '.' ∉ body := by
  induction l generalizing i with
  | nil => exact absurd h (by rw [rfindDot]; simp)
  | cons c cs ih =>
    rw [rfindDot] at h
    cases hcs : rfindDot cs with
    | some j =>
      rw [hcs] at h
      have hij : i = j + 1 := by
        have := Option.some.inj h
        omega
      subst hij
      simpa using ih hcs
    | none =>
      rw [hcs] at h
      by_cases hc : c = '.'
      · rw [if_pos hc] at h
        have h0 : i = 0 := (Option.some.inj h).symm
        subst h0
        exact ⟨cs, by rw [List.drop_zero, hc], not_mem_of_rfindDot_none hcs⟩
      · rw [if_neg hc] at h
        exact absurd h (by simp)

theorem rfindDot_lt_length {l : List Char} {i : Nat} (h : rfindDot l = some i) :
    i < l.length := by
  obtain ⟨body, hdrop, -⟩ := rfindDot_drop h
  by_contra hge
  rw [List.drop_eq_nil_of_le (by omega)] at hdrop
  exact absurd hdrop (by simp)

theorem pathSuffix_some {name : List Char} {i : Nat} (h : rfindDot name = some i) :
    pathSuffix name = if 0 < i ∧ i < name.length - 1 then name.drop i else [] := by
  rw [pathSuffix, h]

theorem pathSuffix_none {name : List Char} (h : rfindDot name = none) :
    pathSuffix name = [] := by
  rw [pathSuffix, h]

theorem pathStem_some {name : List Char} {i : Nat} (h : rfindDot name = some i) :
    pathStem name = if 0 < i ∧ i < name.length - 1 then name.take i else name := by
  rw [pathStem, h]

theorem pathStem_none {name : List Char} (h : rfindDot name = none) :
    pathStem name = name := by
  rw [pathStem, h]

theorem pathStem_append_pathSuffix (name : List Char) :
    pathStem name ++ pathSuffix name = name := by
  cases h : rfindDot name with
  | some i =>
    rw [pathStem_some h, pathSuffix_some h]
    by_cases hc : 0 < i ∧ i < name.length - 1
    · rw [if_pos hc, if_pos hc, List.take_append_drop]
    · rw [if_neg hc, if_neg hc, List.append_nil]
  | none => rw [pathStem_none h, pathSuffix_none h, List.append_nil]

theorem pathStem_subset (name : List Char) : pathStem name ⊆ name := by
  intro x hx
  rw [← pathStem_append_pathSuffix name]
  exact List.mem_append_left _ hx

theorem pathSuffix_subset (name : List Char) : pathSuffix name ⊆ name := by
  intro x hx
  rw [← pathStem_append_pathSuffix name]
  exact List.mem_append_right _ hx

theorem length_spliceAt (name content : List Char) (idx : Nat) :
    (spliceAt name content idx).length = name.length + content.length := by
  rw [spliceAt]
  split
  · have h2 : name.length / 2 ≤ name.length := Nat.div_le_self _ _
    simp [List.length_append, List.length_take, List.length_drop]
    omega
  · rename_i hlt
    simp [List.length_append, List.length_take, List.length_drop]
    omega

theorem mem_spliceAt {x : Char} {name content : List Char} {idx : Nat}
    (h : x ∈ spliceAt name content idx) : x ∈ name ∨ x ∈ content := by
  rw [spliceAt] at h
  split at h <;>
  · rcases List.mem_append.1 h with h1 | h1
    · rcases List.mem_append.1 h1 with h2 | h2
      · exact Or.inl (List.take_subset _ _ h2)
      · exact Or.inr h2
    · exact Or.inl (List.drop_subset _ _ h1)

theorem length_new_file_stem (stem content : List Char) (position : Position)
    (insert_index : Nat) :
    (new_file_stem stem content position insert_index).length =
      stem.length + content.length := by
  cases position with
  | atStart => rw [new_file_stem]; simp [List.length_append]; omega
  | atEnd => rw [new_file_stem]; simp [List.length_append]
  | atMiddle => exact length_spliceAt stem content insert_index

theorem mem_new_file_stem {x : Char} {stem content : List Char} {position : Position}
    {insert_index : Nat} (h : x ∈ new_file_stem stem content position insert_index) :
    x ∈ stem ∨ x ∈ content := by
  cases position with
  | atStart => rw [new_file_stem] at h; exact (List.mem_append.1 h).symm
  | atEnd => rw [new_file_stem] at h; exact List.mem_append.1 h
  | atMiddle => exact mem_spliceAt h

theorem length_generate_new_name (ttype : TKind) (name content : List Char)
    (position : Position) (insert_index : Nat) :
    (generate_new_name ttype name position content insert_index).length =
      name.length + content.length := by
  cases ttype with
  | folder =>
    cases position with
    | atStart => rw [generate_new_name]; simp [List.length_append]; omega
    | atEnd => rw [generate_new_name]; simp [List.length_append]
    | atMiddle => exact length_spliceAt name content insert_index
  | file =>
    have hsplit : (pathStem name).length + (pathSuffix name).length = name.length := by
      have h := congrArg List.length (pathStem_append_pathSuffix name)
      simpa [List.length_append] using h
    rw [generate_new_name]
    simp [List.length_append, length_new_file_stem]
    omega

theorem mem_generate_new_name {x : Char} {ttype : TKind} {name content : List Char}
    {position : Position} {insert_index : Nat}
    (h : x ∈ generate_new_name ttype name position content insert_index) :
    x ∈ name ∨ x ∈ content := by
  cases ttype with
  | folder =>
    cases position with
    | atStart => rw [generate_new_name] at h; exact (List.mem_append.1 h).symm
    | atEnd => rw [generate_new_name] at h; exact List.mem_append.1 h
    | atMiddle => exact mem_spliceAt h
  | file =>
    rw [generate_new_name] at h
    rcases List.mem_append.1 h with h1 | h1
    · rcases mem_new_file_stem h1 with h2 | h2
      · exact Or.inl (pathStem_subset name h2)
      · exact Or.inr h2
    · exact Or.inl (pathSuffix_subset name h1)

theorem pathSuffix_append_dot {stem' body : List Char} (hs : stem' ≠ []) (hb : body ≠ [])
    (hbd : '.' ∉ body) : pathSuffix (stem' ++ '.' :: body) = '.' :: body := by
  have h1 : rfindDot ('.' :: body) = some 0 := by
    rw [rfindDot, rfindDot_none_of_not_mem hbd]
    simp
  have h2 : rfindDot (stem' ++ '.' :: body) = some stem'.length := by
    rw [rfindDot_append, h1]
    simp
  rw [pathSuffix_some h2]
  have hcond : 0 < stem'.length ∧ stem'.length < (stem' ++ '.' :: body).length - 1 := by
    constructor
    · exact List.length_pos.2 hs
    · have hbl : 0 < body.length := List.length_pos.2 hb
      simp [List.length_append]
      omega
  rw [if_pos hcond, List.drop_left]

/-! ### Helper lemmas about the execution loop -/

theorem execute_plan_counts (outcome : Nat → RenameOutcome) (ts op : List Char)
    (position : Position) (idx : Nat) (plan : List RenamePlanItem) :
    ∀ i : Nat,
      (execute_plan outcome ts op position idx plan i).success_count +
        (execute_plan outcome ts op position idx plan i).fail_count = plan.length := by
  induction plan with
  | nil => intro i; rfl
  | cons item rest ih =>
    intro i
    rw [execute_plan]
    by_cases hd : item.duplicate = true
    · simp only [if_pos hd, List.length_cons]
      have := ih (i + 1)
      omega
    · simp only [if_neg hd, List.length_cons]
      cases outcome i <;> simp only [] <;> have := ih (i + 1) <;> omega

theorem execute_plan_records (outcome : Nat → RenameOutcome) (ts op : List Char)
    (position : Position) (idx : Nat) (plan : List RenamePlanItem) :
    ∀ i : Nat,
      (execute_plan outcome ts op position idx plan i).log_records =
        (successfulItems outcome plan i).map (mkAuditRecord ts op position idx) := by
  induction plan with
  | nil => intro i; rfl
  | cons item rest ih =>
    intro i
    rw [execute_plan, successfulItems]
    by_cases hd : item.duplicate = true
    · have hns : ¬(item.duplicate = false ∧ outcome i = RenameOutcome.ok) := by
        intro hcon
        rw [hd] at hcon
        exact absurd hcon.1 (by simp)
      simp only [if_pos hd, if_neg hns]
      exact ih (i + 1)
    · have hdf : item.duplicate = false := by
        cases hdd : item.duplicate
        · rfl
        · exact absurd hdd hd
      cases ho : outcome i with
      | ok =>
        rw [if_neg hd,
          if_pos (show item.duplicate = false ∧ RenameOutcome.ok = RenameOutcome.ok from
            ⟨hdf, rfl⟩)]
        show mkAuditRecord ts op position idx item ::
            (execute_plan outcome ts op position idx rest (i + 1)).log_records =
          List.map (mkAuditRecord ts op position idx)
            (item :: successfulItems outcome rest (i + 1))
        rw [List.map_cons, ih (i + 1)]
      | permFault =>
        rw [if_neg hd,
          if_neg (show ¬(item.duplicate = false ∧
            RenameOutcome.permFault = RenameOutcome.ok) by simp)]
        exact ih (i + 1)
      | otherFault =>
        rw [if_neg hd,
          if_neg (show ¬(item.duplicate = false ∧
            RenameOutcome.otherFault = RenameOutcome.ok) by simp)]
        exact ih (i + 1)

theorem execute_plan_skip (outcome : Nat → RenameOutcome) (ts op : List Char)
    (position : Position) (idx : Nat) (item : RenamePlanItem) (rest : List RenamePlanItem)
    (i : Nat) (h : item.duplicate = true) :
    execute_plan outcome ts op position idx (item :: rest) i =
      { success_count := (execute_plan outcome ts op position idx rest (i + 1)).success_count
        fail_count := (execute_plan outcome ts op position idx rest (i + 1)).fail_count + 1
        log_records := (execute_plan outcome ts op position idx rest (i + 1)).log_records } := by
  rw [execute_plan]
  simp only [if_pos h]

/-! ### Helper lemmas about path joining -/

theorem splitSlash_no_slash {s : List Char} (h : '/' ∉ s) : splitSlash s = [s] := by
  induction s with
  | nil => rfl
  | cons c cs ih =>
    have hc : c ≠ '/' := fun e => h (by simp [e])
    have hcs : '/' ∉ cs := fun m => h (List.mem_cons_of_mem _ m)
    rw [splitSlash, ih hcs]
    simp [hc]

theorem pathJoin_no_slash (dir : FsPath) {s : List Char} (h : '/' ∉ s) (hne : s ≠ []) :
    pathJoin dir s = dir ++ [s] := by
  rw [pathJoin, splitSlash_no_slash h]
  simp [hne]

theorem parentDir_append_single (dir : FsPath) (s : List Char) :
    parentDir (dir ++ [s]) = dir := by
  rw [parentDir, List.dropLast_concat]

theorem slash_illegal (p : Platform) : isIllegalChar p '/' = true := by
  cases p <;> decide

theorem slash_not_mem_filtered (p : Platform) (raw : List Char) :
    '/' ∉ (filter_illegal_chars p raw).1 := by
  intro h
  rw [filter_illegal_chars] at h
  rcases List.mem_filter.1 h with ⟨-, h2⟩
  rw [slash_illegal p] at h2
  exact absurd h2 (by simp)

/-! ### The claims -/

/-- Claim C2: for Middle insertion, an insert index at least the length of the name
being transformed (the full name for folders, the stem for files) is clamped to half
that length by integer division before splicing; in particular a file stem abc with
insert index 10 and non-empty content c becomes a, then c, then bc. -/
theorem middle_insertion_clamp (name content : List Char) (idx : Nat) :
    (name.length ≤ idx →
      generate_new_name TKind.folder name Position.atMiddle content idx =
        name.take (name.length / 2) ++ content ++ name.drop (name.length / 2)) ∧
    ((pathStem name).length ≤ idx →
      generate_new_name TKind.file name Position.atMiddle content idx =
        (pathStem name).take ((pathStem name).length / 2) ++ content ++
          (pathStem name).drop ((pathStem name).length / 2) ++ pathSuffix name) ∧
    (∀ c : List Char, c ≠ [] →
      generate_new_name TKind.file ['a', 'b', 'c'] Position.atMiddle c 10 =
        'a' :: (c ++ ['b', 'c'])) := by
  refine ⟨fun h => ?_, fun h => ?_, fun c hc => ?_⟩
  · rw [generate_new_name, spliceAt, if_pos h]
  · rw [generate_new_name, new_file_stem, spliceAt, if_pos h]
  · have h1 : pathStem ['a', 'b', 'c'] = ['a', 'b', 'c'] := by decide
    have h2 : pathSuffix ['a', 'b', 'c'] = [] := by decide
    rw [generate_new_name, h1, h2, new_file_stem, spliceAt,
      if_pos (show List.length ['a', 'b', 'c'] ≤ 10 by decide)]
    simp

/-- Claim C2 witness: a folder name of length two with index 5 splices at index 1,
and the file stem abc with index 10 splices at index 1. -/
theorem middle_insertion_clamp_witness :
    generate_new_name TKind.folder ['a', 'b'] Position.atMiddle ['z'] 5 =
      ['a'] ++ ['z'] ++ ['b'] ∧
    generate_new_name TKind.file ['a', 'b', 'c'] Position.atMiddle ['z'] 10 =
      'a' :: (['z'] ++ ['b', 'c']) :=
  ⟨(middle_insertion_clamp ['a', 'b'] ['z'] 5).1 (by decide),
   (middle_insertion_clamp ['a', 'b', 'c'] ['z'] 10).2.2 ['z'] (by decide)⟩

/-- Claim C3: the duplicate flag of a plan item is true exactly when the parent
directory of the original path joined with the computed new name exists in the
filesystem snapshot taken at plan-build time. -/
theorem collision_flag_iff_sibling_exists (exists_fs : FsPath → Bool)
    (target_path : FsPath) (ttype : TKind) (position : Position) (content : List Char)
    (insert_index : Nat) :
    (build_plan_item exists_fs target_path ttype position content insert_index).duplicate =
        true ↔
      exists_fs (pathJoin (parentDir target_path)
        (build_plan_item exists_fs target_path ttype position content
          insert_index).new_name) = true :=
  Iff.rfl

/-- Claim C7: the legality filter returns the input with every character of the
platform's illegal class removed, together with the deduplicated collection of the
removed characters; on the strict Windows rule-set the input a:b*c filters to abc
with removed characters exactly the colon and the asterisk, and an empty filtered
result is produced (not an error) when everything is illegal. -/
theorem filter_output_spec (p : Platform) (content : List Char) :
    (filter_illegal_chars p content).1 = content.filter (fun c => ! isIllegalChar p c) ∧
    ((filter_illegal_chars p content).2).Nodup ∧
    (∀ c : Char, c ∈ (filter_illegal_chars p content).2 ↔
      c ∈ content ∧ isIllegalChar p c = true) ∧
    (filter_illegal_chars Platform.windows ['a', ':', 'b', '*', 'c']).1 =
      ['a', 'b', 'c'] ∧
    (∀ c : Char, c ∈ (filter_illegal_chars Platform.windows ['a', ':', 'b', '*', 'c']).2 ↔
      (c = ':' ∨ c = '*')) ∧
    (filter_illegal_chars Platform.windows [':']).1 = [] := by
  refine ⟨rfl, List.nodup_dedup _, fun c => ?_, by decide, fun c => ?_, by decide⟩
  · rw [filter_illegal_chars]
    simp [reFindAll, List.mem_dedup, List.mem_filter]
  · have h : (filter_illegal_chars Platform.windows ['a', ':', 'b', '*', 'c']).2 =
        [':', '*'] := by decide
    rw [h]
    simp

/-- Claim C8: the legality filter is idempotent on its filtered-string component:
filtering an already filtered string changes nothing, for every input and platform. -/
theorem filter_idempotent (p : Platform) (x : List Char) :
    (filter_illegal_chars p (filter_illegal_chars p x).1).1 =
      (filter_illegal_chars p x).1 := by
  rw [filter_illegal_chars, filter_illegal_chars]
  simp only [reSub, List.filter_filter, Bool.and_self]

/-- Claim C9: the resolver's post-processing deduplicates the target list by the
structural (path, kind) pair: the result has no duplicates, and every target that
occurred in the raw list occurs exactly once afterwards. -/
theorem target_dedup (target_list : List Target) :
    (dedupe_targets target_list).Nodup ∧
    ∀ t : Target, t ∈ target_list → (dedupe_targets target_list).count t = 1 := by
  refine ⟨List.nodup_dedup _, fun t ht => ?_⟩
  rw [dedupe_targets, List.count_dedup]
  simp [ht]

/-- Claim C9 witness: resolving the same (path, kind) pair listed twice yields
exactly one target for it. -/
theorem target_dedup_witness :
    (dedupe_targets [{ path := [['a']], kind := TKind.file },
      { path := [['a']], kind := TKind.file }]).count
        { path := [['a']], kind := TKind.file } = 1 :=
  (target_dedup [{ path := [['a']], kind := TKind.file },
    { path := [['a']], kind := TKind.file }]).2
    { path := [['a']], kind := TKind.file } (by decide)

/-- Claim C1 counterexample: the extension in the claim's sense (everything from the
last dot onward, empty only when there is no dot) is not always preserved.  End
insertion of the dot-free content x into the file name .b yields .bx, whose
last-dot extension .bx differs from the original extension .b; and end insertion of
the legality-filtered content v.2 into the dot-free file name abc yields abcv.2,
which acquires the extension .2 where the original had none. -/
theorem file_extension_preservation_counterexample :
    generate_new_name TKind.file ['.', 'b'] Position.atEnd ['x'] 0 = ['.', 'b', 'x'] ∧
    specExt ['.', 'b'] = ['.', 'b'] ∧
    specExt ['.', 'b', 'x'] ≠ specExt ['.', 'b'] ∧
    (filter_illegal_chars Platform.windows ['x']).1 = ['x'] ∧
    generate_new_name TKind.file ['a', 'b', 'c'] Position.atEnd ['v', '.', '2'] 0 =
      ['a', 'b', 'c', 'v', '.', '2'] ∧
    specExt ['a', 'b', 'c'] = [] ∧
    specExt ['a', 'b', 'c', 'v', '.', '2'] = ['.', '2'] ∧
    (filter_illegal_chars Platform.windows ['v', '.', '2']).1 = ['v', '.', '2'] := by
  decide

/-- Claim C1 (amended): for every File target and every insertion policy the new name
is the transformed stem concatenated with the original extension, where stem and
extension are the pathlib ones (the extension runs from the last dot onward but is
empty when that dot is the first or the last character of the name); the new name's
extension equals the original's whenever the original extension is non-empty, and
also whenever neither the original name nor the content contains a dot.  Equality can
fail only when the original extension is empty and a dot is present, as in the
counterexample. -/
theorem file_extension_preservation (name content : List Char) (position : Position)
    (insert_index : Nat) :
    generate_new_name TKind.file name position content insert_index =
      new_file_stem (pathStem name) content position insert_index ++ pathSuffix name ∧
    (pathSuffix name ≠ [] →
      pathSuffix (generate_new_name TKind.file name position content insert_index) =
        pathSuffix name) ∧
    ('.' ∉ name → '.' ∉ content →
      pathSuffix (generate_new_name TKind.file name position content insert_index) =
        pathSuffix name) := by
  refine ⟨rfl, fun hsuf => ?_, fun hn hc => ?_⟩
  · rw [show generate_new_name TKind.file name position content insert_index =
        new_file_stem (pathStem name) content position insert_index ++ pathSuffix name
        from rfl]
    cases hfd : rfindDot name with
    | none => exact absurd (pathSuffix_none hfd) hsuf
    | some i =>
      by_cases hcond : 0 < i ∧ i < name.length - 1
      · have hsufeq : pathSuffix name = name.drop i := by
          rw [pathSuffix_some hfd, if_pos hcond]
        obtain ⟨body, hdrop, hbd⟩ := rfindDot_drop hfd
        have hil : i < name.length := rfindDot_lt_length hfd
        have hbody_ne : body ≠ [] := by
          have hlen : (name.drop i).length = name.length - i := List.length_drop i name
          rw [hdrop] at hlen
          simp only [List.length_cons] at hlen
          intro hb
          rw [hb] at hlen
          simp only [List.length_nil] at hlen
          omega
        have hstem_len : (pathStem name).length = i := by
          rw [pathStem_some hfd, if_pos hcond, List.length_take]
          omega
        have hns_ne : new_file_stem (pathStem name) content position insert_index ≠ [] := by
          intro he
          have hl := length_new_file_stem (pathStem name) content position insert_index
          rw [he, hstem_len] at hl
          simp only [List.length_nil] at hl
          omega
        rw [hsufeq, hdrop]
        exact pathSuffix_append_dot hns_ne hbody_ne hbd
      · exact absurd (by rw [pathSuffix_some hfd, if_neg hcond]) hsuf
  · have h1 : pathSuffix name = [] :=
      pathSuffix_none (rfindDot_none_of_not_mem hn)
    have h2 : '.' ∉ generate_new_name TKind.file name position content insert_index := by
      intro hm
      rcases mem_generate_new_name hm with h | h
      · exact hn h
      · exact hc h
    rw [h1, pathSuffix_none (rfindDot_none_of_not_mem h2)]

/-- Claim C1 witness: for the file name doc.txt and the dot-free content v2 appended
at the end, the new name docv2.txt keeps the extension .txt. -/
theorem file_extension_preservation_witness :
    pathSuffix (generate_new_name TKind.file ['d', 'o', 'c', '.', 't', 'x', 't']
      Position.atEnd ['v', '2'] 0) =
      pathSuffix ['d', 'o', 'c', '.', 't', 'x', 't'] :=
  (file_extension_preservation ['d', 'o', 'c', '.', 't', 'x', 't'] ['v', '2']
    Position.atEnd 0).2.1 (by decide)

/-- Claim C6: for every plan item built from a target and a legality-filtered
content, the parent of the new path equals the parent of the original path: a
rename never moves an entry across directories.  The hypotheses state that the
target's name is a real directory entry name: non-empty and free of the path
separator. -/
theorem plan_no_cross_directory_move (p : Platform) (raw : List Char)
    (exists_fs : FsPath → Bool) (target_path : FsPath) (ttype : TKind)
    (position : Position) (insert_index : Nat)
    (hname : pathName target_path ≠ [])
    (hslash : '/' ∉ pathName target_path) :
    parentDir ((build_plan_item exists_fs target_path ttype position
        (filter_illegal_chars p raw).1 insert_index).new_path) =
      parentDir target_path := by
  have hmem : '/' ∉ generate_new_name ttype (pathName target_path) position
      (filter_illegal_chars p raw).1 insert_index := by
    intro hm
    rcases mem_generate_new_name hm with h | h
    · exact hslash h
    · exact slash_not_mem_filtered p raw h
  have hne : generate_new_name ttype (pathName target_path) position
      (filter_illegal_chars p raw).1 insert_index ≠ [] := by
    intro he
    have hlen := length_generate_new_name ttype (pathName target_path)
      ((filter_illegal_chars p raw).1) position insert_index
    rw [he] at hlen
    simp only [List.length_nil] at hlen
    exact hname (List.length_eq_zero.1 (by omega))
  show parentDir (pathJoin (parentDir target_path)
      (generate_new_name ttype (pathName target_path) position
        (filter_illegal_chars p raw).1 insert_index)) =
    parentDir target_path
  rw [pathJoin_no_slash _ hmem hne, parentDir_append_single]

/-- Claim C6 witness: a concrete file target keeps its parent directory. -/
theorem plan_no_cross_directory_move_witness :
    parentDir ((build_plan_item (fun _ => false) [['r'], ['a', '.', 'b']] TKind.file
        Position.atEnd (filter_illegal_chars Platform.linux ['v']).1 0).new_path) =
      parentDir [['r'], ['a', '.', 'b']] :=
  plan_no_cross_directory_move Platform.linux ['v'] (fun _ => false)
    [['r'], ['a', '.', 'b']] TKind.file Position.atEnd 0 (by decide) (by decide)

/-- Claim C4: the executor processes every plan item regardless of earlier failures:
the success and failure counts always sum to the plan length, and in a batch of
three non-colliding items where only the second rename raises a permission fault,
items one and three are renamed, giving success count 2, failure count 1 and audit
records exactly for the first and the third item, in order. -/
theorem executor_failure_isolation :
    (∀ (outcome : Nat → RenameOutcome) (ts op : List Char) (position : Position)
        (idx : Nat) (plan : List RenamePlanItem) (i : Nat),
      (execute_plan outcome ts op position idx plan i).success_count +
        (execute_plan outcome ts op position idx plan i).fail_count = plan.length) ∧
    (∀ (ts op : List Char) (position : Position) (idx : Nat)
        (p1 p2 p3 : RenamePlanItem),
      p1.duplicate = false → p2.duplicate = false → p3.duplicate = false →
      execute_plan (fun n => if n = 1 then RenameOutcome.permFault else RenameOutcome.ok)
          ts op position idx [p1, p2, p3] 0 =
        { success_count := 2
          fail_count := 1
          log_records := [mkAuditRecord ts op position idx p1,
            mkAuditRecord ts op position idx p3] }) := by
  constructor
  · intro outcome ts op position idx plan i
    exact execute_plan_counts outcome ts op position idx plan i
  · intro ts op position idx p1 p2 p3 h1 h2 h3
    rw [execute_plan, execute_plan, execute_plan, execute_plan]
    norm_num [h1, h2, h3]

/-- Claim C4 witness: a concrete batch of three non-colliding plan items where only
the second rename faults yields two successes, one failure and two audit records. -/
theorem executor_failure_isolation_witness :
    execute_plan (fun n => if n = 1 then RenameOutcome.permFault else RenameOutcome.ok)
        [] [] Position.atEnd 0
        [{ original_path := [['a']], original_name := ['a'], new_name := ['a', 'x'],
           new_path := [['a', 'x']], ttype := TKind.file, duplicate := false },
         { original_path := [['b']], original_name := ['b'], new_name := ['b', 'x'],
           new_path := [['b', 'x']], ttype := TKind.file, duplicate := false },
         { original_path := [['c']], original_name := ['c'], new_name := ['c', 'x'],
           new_path := [['c', 'x']], ttype := TKind.file, duplicate := false }] 0 =
      { success_count := 2
        fail_count := 1
        log_records := [mkAuditRecord [] [] Position.atEnd 0
            { original_path := [['a']], original_name := ['a'], new_name := ['a', 'x'],
              new_path := [['a', 'x']], ttype := TKind.file, duplicate := false },
          mkAuditRecord [] [] Position.atEnd 0
            { original_path := [['c']], original_name := ['c'], new_name := ['c', 'x'],
              new_path := [['c', 'x']], ttype := TKind.file, duplicate := false }] } :=
  executor_failure_isolation.2 [] [] Position.atEnd 0 _ _ _ rfl rfl rfl

/-- Claim C5: audit records are produced exactly for the plan items that were not
skipped as duplicates and whose rename call succeeded, in processing order; a plan
item whose duplicate flag is set is never attempted: it adds one to the failure
count and contributes no audit record. -/
theorem executor_collision_skip_and_audit :
    (∀ (outcome : Nat → RenameOutcome) (ts op : List Char) (position : Position)
        (idx : Nat) (plan : List RenamePlanItem) (i : Nat),
      (execute_plan outcome ts op position idx plan i).log_records =
        (successfulItems outcome plan i).map (mkAuditRecord ts op position idx)) ∧
    (∀ (outcome : Nat → RenameOutcome) (ts op : List Char) (position : Position)
        (idx : Nat) (item : RenamePlanItem) (rest : List RenamePlanItem) (i : Nat),
      item.duplicate = true →
      execute_plan outcome ts op position idx (item :: rest) i =
        { success_count :=
            (execute_plan outcome ts op position idx rest (i + 1)).success_count
          fail_count :=
            (execute_plan outcome ts op position idx rest (i + 1)).fail_count + 1
          log_records :=
            (execute_plan outcome ts op position idx rest (i + 1)).log_records }) := by
  constructor
  · intro outcome ts op position idx plan i
    exact execute_plan_records outcome ts op position idx plan i
  · intro outcome ts op position idx item rest i h
    exact execute_plan_skip outcome ts op position idx item rest i h

/-- Claim C5 witness: a single colliding plan item is skipped, counted as the only
failure, and produces no audit record. -/
theorem executor_collision_skip_and_audit_witness :
    execute_plan (fun _ => RenameOutcome.ok) [] [] Position.atStart 0
        [{ original_path := [['a']], original_name := ['a'], new_name := ['a', 'x'],
           new_path := [['a', 'x']], ttype := TKind.folder, duplicate := true }] 0 =
      { success_count := 0, fail_count := 1, log_records := [] } :=
  executor_collision_skip_and_audit.2 (fun _ => RenameOutcome.ok) [] []
    Position.atStart 0
    { original_path := [['a']], original_name := ['a'], new_name := ['a', 'x'],
      new_path := [['a', 'x']], ttype := TKind.folder, duplicate := true } [] 0 rfl

/-- Claim C10: for every target kind and insertion policy, the generated new name is
exactly the length of the original name plus the length of the inserted content, so
with non-empty content the new name is strictly longer and hence never equal to the
original name. -/
theorem new_name_strictly_longer (ttype : TKind) (name content : List Char)
    (position : Position) (insert_index : Nat) :
    (generate_new_name ttype name position content insert_index).length =
      name.length + content.length ∧
    (content ≠ [] →
      generate_new_name ttype name position content insert_index ≠ name) := by
  refine ⟨length_generate_new_name ttype name content position insert_index,
    fun hc he => ?_⟩
  have hlen := length_generate_new_name ttype name content position insert_index
  rw [he] at hlen
  have h0 : content.length = 0 := by omega
  exact hc (List.length_eq_zero.1 h0)

/-- Claim C10 witness: at a concrete folder name and non-empty content, the planned
new name differs from the original name. -/
theorem new_name_strictly_longer_witness :
    generate_new_name TKind.folder ['a', 'b'] Position.atStart ['x'] 0 ≠ ['a', 'b'] :=
  (new_name_strictly_longer TKind.folder ['a', 'b'] ['x'] Position.atStart 0).2
    (by decide)

end RenameTool
